import Mathlib

/-!
Verification of the core logic of `src/index.js` (CommitGhiranAi): token
estimation, diff chunking, Spanish-language validation, per-chunk analysis
decoding, consolidation of per-chunk analyses, and the bounded retry loop
around single-commit generation.

JavaScript strings are modelled as `List Char` (`Str` below); JavaScript
arrays of strings as `List Str`.  All definitions are translated directly
from the source file; comments cite the JS they embed.
-/

/-- JS string, modelled as a list of characters. -/
abbrev Str := List Char

/-- `estimateTokens(text)` from src/index.js:
`Math.ceil(text.length / 4)`, i.e. ceiling division on naturals. -/
def estimateTokens (text : Str) : Nat :=
  (text.length + 3) / 4

/-- JS `String.prototype.toLowerCase` restricted to the ASCII range used by
the keyword lists of `validateSpanishCommit`. -/
def jsToLower (s : Str) : Str :=
  s.map Char.toLower

/-- JS `String.prototype.includes(needle)`: substring containment. -/
def strContains (hay needle : Str) : Bool :=
  match hay with
  | [] => needle.isPrefixOf ([] : Str)
  | c :: t => needle.isPrefixOf (c :: t) || strContains t needle

/-- The `englishKeywords` array of `validateSpanishCommit`. -/
def englishKeywords : List Str :=
  [ "add".toList, "added".toList, "adding".toList, "create".toList,
    "created".toList, "creating".toList, "update".toList, "updated".toList,
    "updating".toList, "fix".toList, "fixed".toList, "fixing".toList,
    "remove".toList, "removed".toList, "removing".toList, "delete".toList,
    "deleted".toList, "deleting".toList, "implement".toList,
    "implemented".toList, "implementing".toList, "improve".toList,
    "improved".toList, "improving".toList, "refactor".toList,
    "refactored".toList, "refactoring".toList, "change".toList,
    "changed".toList, "changing".toList, "modify".toList, "modified".toList,
    "modifying".toList, "enhance".toList, "enhanced".toList,
    "enhancing".toList ]

/-- The `spanishKeywords` array of `validateSpanishCommit`. -/
def spanishKeywords : List Str :=
  [ "agregar".toList, "añadir".toList, "crear".toList, "actualizar".toList,
    "corregir".toList, "solucionar".toList, "arreglar".toList,
    "eliminar".toList, "remover".toList, "implementar".toList,
    "mejorar".toList, "refactorizar".toList, "cambiar".toList,
    "modificar".toList, "optimizar".toList, "configurar".toList,
    "integrar".toList, "desarrollar".toList ]

/-- Return value of `validateSpanishCommit`. -/
structure SpanishVerdict where
  isValid : Bool
  hasSpanish : Bool
  hasEnglish : Bool
  isEnglishTitle : Bool
deriving DecidableEq, Repr

/-- `validateSpanishCommit(title, body)` from src/index.js, line by line:
`fullText = (title + ' ' + body).toLowerCase()`;
`hasEnglish = englishKeywords.some(k => fullText.includes(k.toLowerCase()))`;
`hasSpanish = spanishKeywords.some(k => fullText.includes(k.toLowerCase()))`;
`titleLower = title.toLowerCase()`;
`isEnglishTitle = englishKeywords.some(k => titleLower.includes(k))`;
result `{ isValid: !hasEnglish && !isEnglishTitle, hasSpanish, hasEnglish,
isEnglishTitle }`. -/
def validateSpanishCommit (title body : Str) : SpanishVerdict :=
  let fullText := jsToLower (title ++ ' ' :: body)
  let hasEnglish := englishKeywords.any fun k => strContains fullText (jsToLower k)
  let hasSpanish := spanishKeywords.any fun k => strContains fullText (jsToLower k)
  let titleLower := jsToLower title
  let isEnglishTitle := englishKeywords.any fun k => strContains titleLower k
  { isValid := !hasEnglish && !isEnglishTitle
    hasSpanish := hasSpanish
    hasEnglish := hasEnglish
    isEnglishTitle := isEnglishTitle }

/-- The `validTypes` array of `generateSingleCommit` (the CommitType enum). -/
def validTypes : List Str :=
  [ "feat".toList, "fix".toList, "docs".toList, "style".toList,
    "refactor".toList, "perf".toList, "test".toList, "chore".toList,
    "build".toList, "ci".toList, "revert".toList ]

/-- JS `diff.split('\n')`: split on newline characters.  On the empty
string this returns `[[]]`, exactly as `"".split('\n')` returns `[""]`. -/
def splitOnNl (s : Str) : List Str :=
  match s with
  | [] => [[]]
  | c :: rest =>
    if c = '\n' then [] :: splitOnNl rest
    else
      match splitOnNl rest with
      | [] => [[c]]
      | r :: rs => (c :: r) :: rs

/-- JS `lines.join('\n')`. -/
def joinNl : List Str → Str
  | [] => []
  | [x] => x
  | x :: y :: xs => x ++ '\n' :: joinNl (y :: xs)

/-- Fuel-driven body of `splitLongLine`: repeatedly take windows of
`maxLength` characters.  The fuel equals the length of the line, which
suffices whenever `maxLength ≥ 1` (the JS loop `for (i = 0; i < length;
i += maxLength)` likewise only terminates for `maxLength ≥ 1`). -/
def splitLongLineAux : Nat → Str → Nat → List Str
  | 0, _, _ => []
  | _, [], _ => []
  | fuel + 1, c :: rest, maxLength =>
    (c :: rest).take maxLength :: splitLongLineAux fuel ((c :: rest).drop maxLength) maxLength

/-- `splitLongLine(line, maxTokens)` from src/index.js: cut the line into
consecutive character windows of `maxLength = maxTokens * 4` characters. -/
def splitLongLine (line : Str) (maxTokens : Nat) : List Str :=
  splitLongLineAux line.length line (maxTokens * 4)

/-- The loop of `splitDiffIntoChunks`, iterating over the remaining lines
with the accumulated `currentChunk` and `currentTokens` as state:
* if `lineTokens > maxTokens`: flush `currentChunk` (if non-empty), then
  append the windows of `splitLongLine` and continue with an empty chunk;
* else if `currentTokens + lineTokens > maxTokens && currentChunk.length > 0`:
  flush `currentChunk`, reseed it with its last `min(5, length)` lines,
  recompute `currentTokens` from the seed, then push the line;
* else push the line onto `currentChunk`.
At the end of input the remaining `currentChunk` is flushed if non-empty. -/
def chunksGo (maxTokens : Nat) : List Str → List Str → Nat → List Str
  | [], currentChunk, _ =>
    if currentChunk = [] then [] else [joinNl currentChunk]
  | line :: rest, currentChunk, currentTokens =>
    let lineTokens := estimateTokens line
    if maxTokens < lineTokens then
      (if currentChunk = [] then [] else [joinNl currentChunk])
        ++ splitLongLine line maxTokens
        ++ chunksGo maxTokens rest [] 0
    else if maxTokens < currentTokens + lineTokens ∧ currentChunk ≠ [] then
      let overlapLines := min 5 currentChunk.length
      let seed := currentChunk.drop (currentChunk.length - overlapLines)
      joinNl currentChunk ::
        chunksGo maxTokens rest (seed ++ [line])
          (estimateTokens (joinNl seed) + estimateTokens line)
    else
      chunksGo maxTokens rest (currentChunk ++ [line])
        (currentTokens + estimateTokens line)

/-- `splitDiffIntoChunks(diff, maxTokens)` from src/index.js. -/
def splitDiffIntoChunks (diff : Str) (maxTokens : Nat) : List Str :=
  chunksGo maxTokens (splitOnNl diff) [] 0

/-- Instrumented chunk: a flushed chunk keeps its line list together with
the number of leading lines that were injected as overlap from the
previous flush, and an oversized line is kept whole (its erasure is the
list of `splitLongLine` windows). -/
inductive IChunk where
  | fl (lines : List Str) (ov : Nat)
  | win (orig : Str)
deriving DecidableEq, Repr

/-- Instrumented variant of `chunksGo`: same branching, same state, but
the produced chunks record their lines, the overlap count (`ov` is the
number of leading overlap lines of the chunk currently being
accumulated), and oversized lines before windowing. -/
def chunksGoI (maxTokens : Nat) : List Str → List Str → Nat → Nat → List IChunk
  | [], currentChunk, ov, _ =>
    if currentChunk = [] then [] else [.fl currentChunk ov]
  | line :: rest, currentChunk, ov, currentTokens =>
    let lineTokens := estimateTokens line
    if maxTokens < lineTokens then
      (if currentChunk = [] then [] else [IChunk.fl currentChunk ov])
        ++ IChunk.win line :: chunksGoI maxTokens rest [] 0 0
    else if maxTokens < currentTokens + lineTokens ∧ currentChunk ≠ [] then
      let overlapLines := min 5 currentChunk.length
      let seed := currentChunk.drop (currentChunk.length - overlapLines)
      .fl currentChunk ov ::
        chunksGoI maxTokens rest (seed ++ [line]) overlapLines
          (estimateTokens (joinNl seed) + estimateTokens line)
    else
      chunksGoI maxTokens rest (currentChunk ++ [line]) ov
        (currentTokens + estimateTokens line)

/-- Instrumented run of `splitDiffIntoChunks`. -/
def splitDiffIntoChunksI (diff : Str) (maxTokens : Nat) : List IChunk :=
  chunksGoI maxTokens (splitOnNl diff) [] 0 0

/-- Erase an instrumented chunk back to the strings pushed by the JS code:
a flushed chunk becomes its `join('\n')`, an oversized line becomes its
`splitLongLine` windows. -/
def eraseChunk (maxTokens : Nat) : IChunk → List Str
  | .fl lines _ => [joinNl lines]
  | .win orig => splitLongLine orig maxTokens

/-- Reconstruction view of an instrumented chunk: drop the overlap lines
injected at a flush, and re-join the character windows produced from an
oversized line. -/
def reconChunk (maxTokens : Nat) : IChunk → List Str
  | .fl lines ov => lines.drop ov
  | .win orig => [(splitLongLine orig maxTokens).flatten]

/-- Overlap relation between two adjacent instrumented chunks: when both
come from the flush path, the first lines of the second chunk equal the
last `min(5, length)` lines of the first. -/
def flPairOK : IChunk → IChunk → Prop
  | .fl ls1 _, .fl ls2 _ =>
    1 ≤ ls1.length ∧
      ls2.take (min 5 ls1.length) = ls1.drop (ls1.length - min 5 ls1.length)
  | _, _ => True

/-- `MAX_TOKEN_LENGTH` constant of src/index.js. -/
def MAX_TOKEN_LENGTH : Nat := 13050

/-- The two control paths of `generateCommit`: the single-pass path (which
never invokes the chunker) and the chunked path carrying the chunker's
output. -/
inductive Route where
  | single
  | chunked (chunks : List Str)
deriving DecidableEq, Repr

/-- The routing decision of `generateCommit(diff)`:
`if (diffTokens <= MAX_TOKEN_LENGTH) return generateSingleCommit(diff)`
else `chunks = splitDiffIntoChunks(diff)` (chunked multi-pass path). -/
def generateCommitRoute (diff : Str) : Route :=
  if estimateTokens diff ≤ MAX_TOKEN_LENGTH then .single
  else .chunked (splitDiffIntoChunks diff MAX_TOKEN_LENGTH)

/-- JS `String.prototype.trim()`: strip whitespace from both ends. -/
def jsTrim (s : Str) : Str :=
  ((s.dropWhile Char.isWhitespace).reverse.dropWhile Char.isWhitespace).reverse

/-- JS `title.split(':')[0]`: the prefix of the string before the first
colon (the whole string if there is none). -/
def beforeColon (s : Str) : Str :=
  s.takeWhile fun c => c ≠ ':'

/-- Reply parsing of `generateSingleCommit`:
`const [firstLine, ...rest] = fullMessage.split('\n').filter(Boolean)`;
`title = firstLine.trim(); body = rest.join('\n').trim()`.
`filter(Boolean)` drops empty lines.  `none` models the case where the
filtered list is empty, in which JS `firstLine.trim()` throws. -/
def parseReply (fullMessage : Str) : Option (Str × Str) :=
  match (splitOnNl fullMessage).filter (fun l => l ≠ []) with
  | [] => none
  | firstLine :: rest => some (jsTrim firstLine, jsTrim (joinNl rest))

/-- Acceptance condition of the retry loop of `generateSingleCommit`:
`body.length > 0 && validTypes.includes(commitType) &&
spanishValidation.isValid`, with
`commitType = title.split(':')[0].trim()`. -/
def acceptReply (title body : Str) : Bool :=
  decide (0 < body.length) &&
    validTypes.contains (jsTrim (beforeColon title)) &&
    (validateSpanishCommit title body).isValid

/-- A backend reply that parses but is rejected by `acceptReply`. -/
def rejectsB (fullMessage : Str) : Bool :=
  match parseReply fullMessage with
  | none => false
  | some (t, b) => !acceptReply t b

/-- Outcome of the retry loop of `generateSingleCommit`, with the number
of backend calls performed: `success` returns `{title, body}`;
`exhausted` is the fatal `process.exit(1)` after the attempt bound, which
terminates the whole operation with no commit message; `crashed` models
the JS `TypeError` on a reply with no non-empty line. -/
inductive GenOutcome where
  | success (title body : Str) (calls : Nat)
  | exhausted (calls : Nat)
  | crashed (calls : Nat)
deriving DecidableEq, Repr

/-- The `while (attempts < 5)` loop of `generateSingleCommit`, with the
backend modelled as a stub `reply : Nat → Str` giving the reply to each
attempt (0-based).  The fuel argument is `5 - attempts`. -/
def genAux (reply : Nat → Str) : Nat → Nat → GenOutcome
  | 0, attempts => .exhausted attempts
  | fuel + 1, attempts =>
    match parseReply (reply attempts) with
    | none => .crashed (attempts + 1)
    | some (t, b) =>
      if acceptReply t b then .success t b (attempts + 1)
      else genAux reply fuel (attempts + 1)

/-- `generateSingleCommit` retry loop with `maxAttempts = 5`. -/
def generateSingleCommitLoop (reply : Nat → Str) : GenOutcome :=
  genAux reply 5 0

/-- A per-segment analysis as consumed by `consolidateAnalysis`, with all
fields present (the well-formed shape produced by `analyzeChunk`'s
prompt/fallback).  JS truthiness on the present fields: an array is always
truthy, a string is truthy iff non-empty. -/
structure SegmentAnalysis where
  tipo_principal : Str
  componentes : List Str
  cambios : List Str
  contexto : Str
deriving DecidableEq, Repr

/-- Result of `consolidateAnalysis`. -/
structure ConsolidatedAnalysis where
  tipo_principal : Str
  componentes : List Str
  cambios : List Str
  contexto_general : Str
deriving DecidableEq, Repr

/-- `tiposFrecuencia[tipo] = (tiposFrecuencia[tipo] || 0) + 1` on a JS
object with non-numeric string keys, modelled as an insertion-ordered
association list (JS objects enumerate such keys in insertion order). -/
def bump : List (Str × Nat) → Str → List (Str × Nat)
  | [], t => [(t, 1)]
  | (k, v) :: rest, t =>
    if k = t then (k, v + 1) :: rest else (k, v) :: bump rest t

/-- Count lookup in the frequency table, 0 for an absent key. -/
def lookupCount (k : Str) : List (Str × Nat) → Nat
  | [] => 0
  | (k', v) :: rest => if k' = k then v else lookupCount k rest

/-- Keys of the frequency table in enumeration order. -/
def keysOf (l : List (Str × Nat)) : List Str :=
  l.map Prod.fst

/-- Stable insertion (descending by count) for
`Object.entries(...).sort(([,a],[,b]) => b - a)`: an element is placed
before the first entry of strictly smaller count, so entries of equal
count keep their enumeration order, as `Array.prototype.sort` (stable per
ECMA-262) does with this comparator. -/
def insertByCountDesc (x : Str × Nat) : List (Str × Nat) → List (Str × Nat)
  | [] => [x]
  | y :: ys => if x.2 < y.2 then y :: insertByCountDesc x ys else x :: y :: ys

/-- Stable sort, descending by count. -/
def sortByCountDesc (l : List (Str × Nat)) : List (Str × Nat) :=
  l.foldr insertByCountDesc []

/-- First-encountered entry of maximal count (the specification's reading
of the tie-break: the type with the highest occurrence count, ties broken
by first-encountered order during the frequency tally). -/
def firstMaxEntry : List (Str × Nat) → Option (Str × Nat)
  | [] => none
  | x :: xs =>
    some (match firstMaxEntry xs with
      | none => x
      | some m => if m.2 ≤ x.2 then x else m)

/-- First-appearance deduplication with an accumulator of already seen
values; `dedupFirst` below models both `[...new Set(xs)]` (Set iteration
follows first insertion) and the specification's "order of first
appearance, duplicates removed". -/
def dedupFirstAux : List Str → List Str → List Str
  | [], _ => []
  | x :: xs, seen =>
    if x ∈ seen then dedupFirstAux xs seen
    else x :: dedupFirstAux xs (x :: seen)

/-- `[...new Set(xs)]`. -/
def dedupFirst (xs : List Str) : List Str :=
  dedupFirstAux xs []

/-- JS `contextos.join('. ')`. -/
def joinDotSpace : List Str → Str
  | [] => []
  | [x] => x
  | x :: y :: xs => x ++ '.' :: ' ' :: joinDotSpace (y :: xs)

/-- Accumulator of the single `analyses.forEach(...)` pass of
`consolidateAnalysis`. -/
structure ConsAcc where
  tiposFrecuencia : List (Str × Nat)
  todosComponentes : List Str
  todosCambios : List Str
  contextos : List Str
deriving DecidableEq, Repr

/-- One iteration of the `forEach` body: count the type, spread
`componentes` and `cambios` (present arrays are truthy, so the `if`
guards always pass), and push `contexto` only when truthy (non-empty). -/
def consStep (acc : ConsAcc) (a : SegmentAnalysis) : ConsAcc :=
  { tiposFrecuencia := bump acc.tiposFrecuencia a.tipo_principal
    todosComponentes := acc.todosComponentes ++ a.componentes
    todosCambios := acc.todosCambios ++ a.cambios
    contextos :=
      if a.contexto = [] then acc.contextos else acc.contextos ++ [a.contexto] }

/-- `consolidateAnalysis(analyses)` from src/index.js.  The JS
`Object.entries(tiposFrecuencia).sort(([,a],[,b]) => b - a)[0][0]`
(which throws on an empty input) is modelled with a `headD` sentinel; the
callers only pass non-empty analysis lists. -/
def consolidateAnalysis (analyses : List SegmentAnalysis) : ConsolidatedAnalysis :=
  let acc := analyses.foldl consStep ⟨[], [], [], []⟩
  { tipo_principal := ((sortByCountDesc acc.tiposFrecuencia).headD ([], 0)).1
    componentes := dedupFirst acc.todosComponentes
    cambios := acc.todosCambios
    contexto_general := joinDotSpace acc.contextos }

/-- JSON values, as produced by `JSON.parse` on the reply region.  Number
lexemes are kept raw: no claim depends on numeric values. -/
inductive Json where
  | null
  | bool (b : Bool)
  | num (raw : Str)
  | str (s : Str)
  | arr (elems : List Json)
  | obj (members : List (Str × Json))

/-- Opening brace character. -/
def lbrace : Char := Char.ofNat 123

/-- Closing brace character. -/
def rbrace : Char := Char.ofNat 125

/-- JSON insignificant whitespace. -/
def isJsonWs (c : Char) : Bool :=
  c = ' ' || c = '\t' || c = '\n' || c = '\r'

/-- Skip insignificant whitespace. -/
def skipWs (s : Str) : Str :=
  s.dropWhile isJsonWs

/-- Hexadecimal digit value. -/
def hexDigit? (c : Char) : Option Nat :=
  if '0' ≤ c ∧ c ≤ '9' then some (c.toNat - '0'.toNat)
  else if 'a' ≤ c ∧ c ≤ 'f' then some (c.toNat - 'a'.toNat + 10)
  else if 'A' ≤ c ∧ c ≤ 'F' then some (c.toNat - 'A'.toNat + 10)
  else none

/-- Parse the body of a JSON string after the opening quote, returning the
decoded content and the rest of the input after the closing quote.  Per
the JSON grammar enforced by `JSON.parse`, an unescaped control character
(U+0000 through U+001F, e.g. a raw newline) inside a string literal is a
syntax error. -/
def parseStringBody : Nat → Str → Option (Str × Str)
  | 0, _ => none
  | fuel + 1, s =>
    match s with
    | [] => none
    | c :: rest =>
      if c = '"' then some ([], rest)
      else if c = '\\' then
        match rest with
        | [] => none
        | e :: rest2 =>
          if e = '"' then (parseStringBody fuel rest2).map fun p => ('"' :: p.1, p.2)
          else if e = '\\' then (parseStringBody fuel rest2).map fun p => ('\\' :: p.1, p.2)
          else if e = '/' then (parseStringBody fuel rest2).map fun p => ('/' :: p.1, p.2)
          else if e = 'b' then (parseStringBody fuel rest2).map fun p => (Char.ofNat 8 :: p.1, p.2)
          else if e = 'f' then (parseStringBody fuel rest2).map fun p => (Char.ofNat 12 :: p.1, p.2)
          else if e = 'n' then (parseStringBody fuel rest2).map fun p => ('\n' :: p.1, p.2)
          else if e = 'r' then (parseStringBody fuel rest2).map fun p => ('\r' :: p.1, p.2)
          else if e = 't' then (parseStringBody fuel rest2).map fun p => ('\t' :: p.1, p.2)
          else if e = 'u' then
            match rest2 with
            | h1 :: h2 :: h3 :: h4 :: rest3 =>
              match hexDigit? h1, hexDigit? h2, hexDigit? h3, hexDigit? h4 with
              | some a, some b, some c2, some d =>
                (parseStringBody fuel rest3).map fun p =>
                  (Char.ofNat (((a * 16 + b) * 16 + c2) * 16 + d) :: p.1, p.2)
              | _, _, _, _ => none
            | _ => none
          else none
      else if c.toNat < 32 then none
      else (parseStringBody fuel rest).map fun p => (c :: p.1, p.2)

/-- Decimal digit test. -/
def isDigitCh (c : Char) : Bool :=
  '0' ≤ c && c ≤ '9'

/-- Parse a JSON number lexeme (`-?(0|[1-9][0-9]*)(\.[0-9]+)?([eE][+-]?[0-9]+)?`),
returning the raw lexeme and the rest of the input. -/
def parseNumber (s : Str) : Option (Str × Str) :=
  let (sign, s1) :=
    match s with
    | '-' :: t => (['-'], t)
    | _ => (([] : Str), s)
  match s1 with
  | [] => none
  | d :: _ =>
    if !isDigitCh d then none
    else
      let (ipart, s2) :=
        if d = '0' then (['0'], s1.drop 1)
        else (s1.takeWhile isDigitCh, s1.dropWhile isDigitCh)
      let (fpart, s3) :=
        match s2 with
        | '.' :: t =>
          let ds := t.takeWhile isDigitCh
          if ds = [] then (none, s2) else (some ('.' :: ds), t.dropWhile isDigitCh)
        | _ => (none, s2)
      match fpart, s3 with
      | none, '.' :: _ => none
      | _, _ =>
        let (epart, s4) :=
          match s3 with
          | e :: t =>
            if e = 'e' ∨ e = 'E' then
              let (es, t2) :=
                match t with
                | '+' :: t2 => (['+'], t2)
                | '-' :: t2 => (['-'], t2)
                | _ => (([] : Str), t)
              let ds := t2.takeWhile isDigitCh
              if ds = [] then (none, s3) else (some (e :: es ++ ds), t2.dropWhile isDigitCh)
            else (none, s3)
          | [] => (none, s3)
        match epart, s4 with
        | none, e :: _ =>
          if e = 'e' ∨ e = 'E' then none
          else some (sign ++ ipart ++ (fpart.getD []) ++ [], s4)
        | _, _ => some (sign ++ ipart ++ (fpart.getD []) ++ (epart.getD []), s4)

mutual

/-- Parse one JSON value (after skipping whitespace), fuel-driven. -/
def parseValue : Nat → Str → Option (Json × Str)
  | 0, _ => none
  | fuel + 1, s =>
    match skipWs s with
    | [] => none
    | c :: rest =>
      if c = lbrace then parseObjBody fuel rest
      else if c = '[' then parseArrBody fuel rest
      else if c = '"' then (parseStringBody fuel rest).map fun p => (Json.str p.1, p.2)
      else if c = 't' then
        if ['r', 'u', 'e'].isPrefixOf rest then some (Json.bool true, rest.drop 3) else none
      else if c = 'f' then
        if ['a', 'l', 's', 'e'].isPrefixOf rest then some (Json.bool false, rest.drop 4) else none
      else if c = 'n' then
        if ['u', 'l', 'l'].isPrefixOf rest then some (Json.null, rest.drop 3) else none
      else (parseNumber (c :: rest)).map fun p => (Json.num p.1, p.2)

/-- Parse an object body after the opening brace. -/
def parseObjBody : Nat → Str → Option (Json × Str)
  | 0, _ => none
  | fuel + 1, s =>
    match skipWs s with
    | [] => none
    | c :: rest =>
      if c = rbrace then some (Json.obj [], rest)
      else parseMembers fuel (c :: rest) []

/-- Parse the members of a non-empty object. -/
def parseMembers : Nat → Str → List (Str × Json) → Option (Json × Str)
  | 0, _, _ => none
  | fuel + 1, s, acc =>
    match skipWs s with
    | [] => none
    | c :: rest =>
      if c = '"' then
        match parseStringBody fuel rest with
        | some (key, r1) =>
          (match skipWs r1 with
           | ':' :: r2 =>
             (match parseValue fuel r2 with
              | some (v, r3) =>
                (match skipWs r3 with
                 | ',' :: r4 => parseMembers fuel r4 (acc ++ [(key, v)])
                 | d :: r4 =>
                   if d = rbrace then some (Json.obj (acc ++ [(key, v)]), r4) else none
                 | [] => none)
              | none => none)
           | _ => none)
        | none => none
      else none

/-- Parse an array body after the opening bracket. -/
def parseArrBody : Nat → Str → Option (Json × Str)
  | 0, _ => none
  | fuel + 1, s =>
    match skipWs s with
    | [] => none
    | c :: rest =>
      if c = ']' then some (Json.arr [], rest)
      else parseElems fuel (c :: rest) []

/-- Parse the elements of a non-empty array. -/
def parseElems : Nat → Str → List Json → Option (Json × Str)
  | 0, _, _ => none
  | fuel + 1, s, acc =>
    match parseValue fuel s with
    | some (v, r1) =>
      (match skipWs r1 with
       | ',' :: r2 => parseElems fuel r2 (acc ++ [v])
       | d :: r2 => if d = ']' then some (Json.arr (acc ++ [v]), r2) else none
       | [] => none)
    | none => none

end

/-- `JSON.parse(s)`: parse one value and require only whitespace after it. -/
def jsonParse (s : Str) : Option Json :=
  match parseValue (2 * s.length + 2) s with
  | some (v, rest) => if skipWs rest = [] then some v else none
  | none => none

/-- `response.match(/\x7b[\s\S]*\x7d/)`: the greedy match runs from the
first opening brace to the last closing brace; it exists iff the last
closing brace lies strictly after the first opening brace. -/
def extractJsonRegion (s : Str) : Option Str :=
  match s.findIdx? (fun c => c = lbrace), (s.reverse.findIdx? (fun c => c = rbrace)) with
  | some p, some qr =>
    let q := s.length - 1 - qr
    if p < q then some ((s.drop p).take (q - p + 1)) else none
  | _, _ => none

/-- Digits of a natural number (for the `${chunkIndex + 1}` interpolation). -/
def natToStr (n : Nat) : Str :=
  Nat.toDigits 10 n

/-- The fallback analysis object of `analyzeChunk`:
`{ tipo_principal: "chore", componentes: ["codigo"],
   cambios: ["Cambios en fragmento " + (chunkIndex+1)],
   contexto: response.substring(0, 100) + "..." }`. -/
def fallbackAnalysis (response : Str) (chunkIndex : Nat) : Json :=
  .obj
    [ ("tipo_principal".toList, .str ("chore".toList)),
      ("componentes".toList, .arr [.str ("codigo".toList)]),
      ("cambios".toList,
        .arr [.str ("Cambios en fragmento ".toList ++ natToStr (chunkIndex + 1))]),
      ("contexto".toList, .str (response.take 100 ++ "...".toList)) ]

/-- The reply-decoding step of `analyzeChunk` (its pure part, after the
backend call): extract the first-brace-to-last-brace region, `JSON.parse`
it, and fall back to the synthetic analysis when the region is absent or
unparseable.  A successfully parsed object is returned as-is, whatever
fields it has. -/
def analyzeChunkDecode (response : Str) (chunkIndex : Nat) : Json :=
  match extractJsonRegion response with
  | some region =>
    match jsonParse region with
    | some v => v
    | none => fallbackAnalysis response chunkIndex
  | none => fallbackAnalysis response chunkIndex

/-- Decode failure of `analyzeChunk`: no brace region, or the region is
not valid JSON. -/
def analyzeChunkDecodeFails (response : Str) : Bool :=
  match extractJsonRegion response with
  | none => true
  | some region => (jsonParse region).isNone

/-- Sum of the per-line token estimates (the quantity `currentTokens`
accumulates between flushes; note it does not count the `'\n'` separators
that `estimateTokens(chunk.join('\n'))` sees). -/
def sumTokens (lines : List Str) : Nat :=
  (lines.map estimateTokens).sum

/-- A diff of 10441 four-character lines: its whole-text token estimate is
13051 (the newline separators count), yet the per-line estimates sum to
only 10441, so the chunk loop never flushes. -/
def bigDiffC7 : Str :=
  joinNl (List.replicate 10441 "aaaa".toList)

/-- Number of object members of a JSON value (discriminator used to
separate a parsed reply from the synthetic fallback object). -/
def jsonObjSize : Json → Nat
  | .obj l => l.length
  | _ => 0

/-! ## Lemmas about the validator -/

theorem isPrefixOf_append_right (n a b : Str) (h : n.isPrefixOf a = true) :
    n.isPrefixOf (a ++ b) = true := by
  induction n generalizing a with
  | nil => simp [List.isPrefixOf]
  | cons c t ih =>
    cases a with
    | nil => simp [List.isPrefixOf] at h
    | cons a0 a' =>
      simp only [List.cons_append, List.isPrefixOf, Bool.and_eq_true] at h ⊢
      exact ⟨h.1, ih a' h.2⟩

theorem strContains_nil_needle (h : Str) : strContains h [] = true := by
  cases h <;> simp [strContains, List.isPrefixOf]

theorem strContains_append_left (a b n : Str) (h : strContains a n = true) :
    strContains (a ++ b) n = true := by
  induction a with
  | nil =>
    cases n with
    | nil => exact strContains_nil_needle b
    | cons c t => simp [strContains, List.isPrefixOf] at h
  | cons a0 a' ih =>
    simp only [strContains, Bool.or_eq_true, List.cons_append] at h ⊢
    rcases h with h | h
    · exact Or.inl (isPrefixOf_append_right _ _ _ h)
    · exact Or.inr (ih h)

theorem jsToLower_append (a b : Str) : jsToLower (a ++ b) = jsToLower a ++ jsToLower b :=
  List.map_append _ a b

theorem englishKeywords_already_lower : ∀ k ∈ englishKeywords, jsToLower k = k := by
  decide

/-- `isValid` is literally `!hasEnglish && !isEnglishTitle`. -/
theorem isValid_eq_not_and (t b : Str) :
    (validateSpanishCommit t b).isValid
      = (!(validateSpanishCommit t b).hasEnglish &&
         !(validateSpanishCommit t b).isEnglishTitle) := rfl

/-- A foreign keyword found in the lowercased title is also found in the
lowercased `title + ' ' + body`. -/
theorem isEnglishTitle_imp_hasEnglish (title body : Str)
    (h : (validateSpanishCommit title body).isEnglishTitle = true) :
    (validateSpanishCommit title body).hasEnglish = true := by
  simp only [validateSpanishCommit, List.any_eq_true] at h ⊢
  rcases h with ⟨k, hk, hc⟩
  refine ⟨k, hk, ?_⟩
  rw [show title ++ ' ' :: body = title ++ (' ' :: body) from rfl,
    jsToLower_append, englishKeywords_already_lower k hk]
  exact strContains_append_left _ _ _ hc

/-- Claim C3: `validateSpanishCommit(title, body)` is a pure function
whose `isValid` field is true iff the lowercased `title + " " + body`
contains none of the English keywords as a substring and the lowercased
title alone contains none of them; `hasSpanish` has no influence on
`isValid` (`isValid` is exactly `!hasEnglish && !isEnglishTitle`). -/
theorem c3_validator_characterization (title body : Str) :
    ((validateSpanishCommit title body).isValid = true ↔
      ((∀ k ∈ englishKeywords,
          strContains (jsToLower (title ++ ' ' :: body)) (jsToLower k) = false) ∧
       (∀ k ∈ englishKeywords, strContains (jsToLower title) k = false))) ∧
    (validateSpanishCommit title body).isValid
      = (!(validateSpanishCommit title body).hasEnglish &&
         !(validateSpanishCommit title body).isEnglishTitle) := by
  refine ⟨?_, isValid_eq_not_and title body⟩
  simp [validateSpanishCommit, Bool.and_eq_true, Bool.not_eq_true',
    List.any_eq_false]

/-- Claim C4 (spec test vector, refuted on the first half): the code
returns `isValid = false` for `validate("fix: corregir error",
"agregar validacion")` because the keyword `"fix"` substring-matches the
mandatory commit-type prefix itself; the second vector
(`validate("add: new feature", "...")` → invalid, English title) does
hold.  The spec expects `isValid = true` for the first vector. -/
theorem c4_validator_examples :
    (validateSpanishCommit "fix: corregir error".toList "agregar validacion".toList).isValid
        = false ∧
    (validateSpanishCommit "fix: corregir error".toList "agregar validacion".toList).hasEnglish
        = true ∧
    (validateSpanishCommit "add: new feature".toList "...".toList).isValid = false ∧
    (validateSpanishCommit "add: new feature".toList "...".toList).isEnglishTitle = true := by
  decide

/-- Claim C10: the independent title check is redundant for validity:
every keyword found in the lowercased title is found in the lowercased
combined text, so `isValid = !hasEnglish`. -/
theorem c10_title_check_redundant (title body : Str) :
    (validateSpanishCommit title body).isValid
      = !(validateSpanishCommit title body).hasEnglish := by
  rw [isValid_eq_not_and]
  cases hE : (validateSpanishCommit title body).hasEnglish with
  | true => simp
  | false =>
    have hT : (validateSpanishCommit title body).isEnglishTitle = false := by
      cases hT : (validateSpanishCommit title body).isEnglishTitle with
      | true => rw [isEnglishTitle_imp_hasEnglish title body hT] at hE; exact hE
      | false => rfl
    simp [hT]

/-! ## Lemmas about the retry loop -/

theorem genAux_success (reply : Nat → Str) :
    ∀ fuel attempts k t b, attempts + fuel = 5 → attempts < k → k ≤ 5 →
      (∀ i, attempts ≤ i → i < k - 1 → rejectsB (reply i) = true) →
      parseReply (reply (k - 1)) = some (t, b) → acceptReply t b = true →
      genAux reply fuel attempts = .success t b k := by
  intro fuel
  induction fuel with
  | zero => intro attempts k t b h5 hak hk5 _ _ _; omega
  | succ n ih =>
    intro attempts k t b h5 hak hk5 hrej hparse hacc
    by_cases heq : attempts = k - 1
    · subst heq
      simp only [genAux, hparse, hacc, if_pos]
      congr 1
      omega
    · have hlt : attempts < k - 1 := by omega
      have hr := hrej attempts (Nat.le_refl _) hlt
      unfold rejectsB at hr
      cases hp : parseReply (reply attempts) with
      | none => rw [hp] at hr; simp at hr
      | some tb =>
        rw [hp] at hr
        obtain ⟨t', b'⟩ := tb
        simp only [Bool.not_eq_true'] at hr
        simp only [genAux, hp, hr, if_neg, Bool.false_eq_true, not_false_iff]
        exact ih (attempts + 1) k t b (by omega) (by omega) hk5
          (fun i hi1 hi2 => hrej i (by omega) hi2) hparse hacc

theorem genAux_exhausted (reply : Nat → Str) :
    ∀ fuel attempts,
      (∀ i, attempts ≤ i → i < attempts + fuel → rejectsB (reply i) = true) →
      genAux reply fuel attempts = .exhausted (attempts + fuel) := by
  intro fuel
  induction fuel with
  | zero => intro attempts _; simp [genAux]
  | succ n ih =>
    intro attempts hrej
    have hr := hrej attempts (Nat.le_refl _) (by omega)
    unfold rejectsB at hr
    cases hp : parseReply (reply attempts) with
    | none => rw [hp] at hr; simp at hr
    | some tb =>
      rw [hp] at hr
      obtain ⟨t', b'⟩ := tb
      simp only [Bool.not_eq_true'] at hr
      simp only [genAux, hp, hr, if_neg, Bool.false_eq_true, not_false_iff]
      rw [ih (attempts + 1) (fun i hi1 hi2 => hrej i (by omega) (by omega))]
      congr 1
      omega

/-- Claim C5: with the backend modelled as a stub `reply`, the
language-enforced retry loop of `generateSingleCommit` (bound 5) returns
`{title, body}` after exactly `k` backend calls when attempts `1..k-1`
are rejected and attempt `k ≤ 5` is accepted (a reply is accepted iff the
parsed body is non-empty, the title's prefix before the first `:` is a
member of the commit-type enum, and `validateSpanishCommit` says valid);
and when every attempt is rejected it makes exactly 5 calls and
terminates fatally (`exhausted`), producing no commit message. -/
theorem c5_retry_loop (reply : Nat → Str) (k : Nat) (t b : Str)
    (hk1 : 1 ≤ k) (hk5 : k ≤ 5) :
    ((∀ i, i < k - 1 → rejectsB (reply i) = true) →
      parseReply (reply (k - 1)) = some (t, b) → acceptReply t b = true →
      generateSingleCommitLoop reply = .success t b k) ∧
    ((∀ i, i < 5 → rejectsB (reply i) = true) →
      generateSingleCommitLoop reply = .exhausted 5) := by
  constructor
  · intro hrej hparse hacc
    exact genAux_success reply 5 0 k t b (by omega) (by omega) hk5
      (fun i _ hi2 => hrej i hi2) hparse hacc
  · intro hrej
    exact genAux_exhausted reply 5 0 (fun i _ hi2 => hrej i hi2)

/-- Backend stub for the witness of C5: the first reply lacks a valid
type prefix, the second is a well-formed Spanish commit message. -/
def c5StubReply : Nat → Str :=
  fun i => if i = 0 then "hola".toList else "feat: listo\ncuerpo".toList

/-- Witness for C5: on the stub, the loop succeeds on attempt 2 with
exactly 2 backend calls. -/
theorem c5_retry_loop_witness :
    generateSingleCommitLoop c5StubReply
      = .success ("feat: listo".toList) ("cuerpo".toList) 2 := by
  refine (c5_retry_loop c5StubReply 2 ("feat: listo".toList) ("cuerpo".toList)
      (by decide) (by decide)).1 ?_ (by decide) (by decide)
  intro i hi
  have h0 : i = 0 := by omega
  subst h0
  decide

/-! ## Lemmas about consolidation -/

/-- The frequency tally of the analyses' types, as built by the
`forEach` pass. -/
def tallyTipos (analyses : List SegmentAnalysis) : List (Str × Nat) :=
  (analyses.map (·.tipo_principal)).foldl bump []

theorem keysOf_bump (l : List (Str × Nat)) (t : Str) :
    keysOf (bump l t) = if t ∈ keysOf l then keysOf l else keysOf l ++ [t] := by
  induction l with
  | nil => simp [bump, keysOf]
  | cons p rest ih =>
    obtain ⟨k, v⟩ := p
    by_cases hkt : k = t
    · subst hkt; simp [bump, keysOf]
    · simp only [bump, if_neg hkt, keysOf, List.map_cons, List.mem_cons] at ih ⊢
      by_cases hmem : t ∈ List.map Prod.fst rest
      · simp [ih, hmem, Ne.symm hkt]
      · simp [ih, hmem, Ne.symm hkt]

theorem lookupCount_bump (l : List (Str × Nat)) (t k : Str) :
    lookupCount k (bump l t) = lookupCount k l + (if k = t then 1 else 0) := by
  induction l with
  | nil =>
    by_cases hkt : k = t
    · subst hkt; simp [bump, lookupCount]
    · simp [bump, lookupCount, hkt, Ne.symm hkt]
  | cons p rest ih =>
    obtain ⟨k', v⟩ := p
    by_cases hk't : k' = t
    · subst hk't
      by_cases hkk' : k' = k
      · subst hkk'; simp [bump, lookupCount]
      · simp [bump, lookupCount, hkk', Ne.symm hkk']
    · by_cases hkk' : k' = k
      · subst hkk'; simp [bump, hk't, lookupCount]
      · simp [bump, hk't, lookupCount, hkk', ih]

theorem lookupCount_foldl_bump (ts : List Str) :
    ∀ (acc : List (Str × Nat)) (k : Str),
      lookupCount k (ts.foldl bump acc) = lookupCount k acc + ts.count k := by
  induction ts with
  | nil => intro acc k; simp
  | cons t ts ih =>
    intro acc k
    rw [List.foldl_cons, ih (bump acc t) k, lookupCount_bump, List.count_cons]
    by_cases hkt : k = t
    · subst hkt; simp; omega
    · simp [hkt, Ne.symm hkt]
    
theorem dedupFirstAux_congr (ts : List Str) :
    ∀ s1 s2, (∀ x, x ∈ s1 ↔ x ∈ s2) → dedupFirstAux ts s1 = dedupFirstAux ts s2 := by
  induction ts with
  | nil => intro s1 s2 _; rfl
  | cons t ts ih =>
    intro s1 s2 h
    by_cases hmem : t ∈ s1
    · rw [dedupFirstAux, if_pos hmem, dedupFirstAux, if_pos ((h t).mp hmem)]
      exact ih s1 s2 h
    · rw [dedupFirstAux, if_neg hmem, dedupFirstAux,
        if_neg (fun hc => hmem ((h t).mpr hc))]
      refine congrArg _ (ih _ _ fun x => ?_)
      simp [h x]

theorem keysOf_foldl_bump (ts : List Str) :
    ∀ acc : List (Str × Nat),
      keysOf (ts.foldl bump acc) = keysOf acc ++ dedupFirstAux ts (keysOf acc) := by
  induction ts with
  | nil => intro acc; simp [dedupFirstAux]
  | cons t ts ih =>
    intro acc
    rw [List.foldl_cons, ih (bump acc t), keysOf_bump]
    by_cases hmem : t ∈ keysOf acc
    · rw [if_pos hmem, dedupFirstAux, if_pos hmem]
    · rw [if_neg hmem, dedupFirstAux, if_neg hmem, List.append_assoc]
      refine congrArg _ ?_
      rw [List.singleton_append]
      refine congrArg _ (dedupFirstAux_congr ts _ _ fun x => ?_)
      simp [List.mem_append, or_comm]

theorem mem_dedupFirstAux_not_seen (ts : List Str) :
    ∀ seen x, x ∈ dedupFirstAux ts seen → x ∉ seen := by
  induction ts with
  | nil => intro seen x h; simp [dedupFirstAux] at h
  | cons t ts ih =>
    intro seen x h
    by_cases hmem : t ∈ seen
    · rw [dedupFirstAux, if_pos hmem] at h
      exact ih seen x h
    · rw [dedupFirstAux, if_neg hmem] at h
      rcases List.mem_cons.mp h with h | h
      · subst h; exact hmem
      · intro hc
        exact ih (t :: seen) x h (List.mem_cons_of_mem _ hc)

theorem dedupFirstAux_nodup (ts : List Str) :
    ∀ seen, (dedupFirstAux ts seen).Nodup := by
  induction ts with
  | nil => intro seen; simp [dedupFirstAux]
  | cons t ts ih =>
    intro seen
    by_cases hmem : t ∈ seen
    · rw [dedupFirstAux, if_pos hmem]; exact ih seen
    · rw [dedupFirstAux, if_neg hmem]
      refine List.nodup_cons.mpr ⟨?_, ih (t :: seen)⟩
      intro hc
      exact mem_dedupFirstAux_not_seen ts (t :: seen) t hc (List.mem_cons_self _ _)

theorem lookupCount_of_mem (k : Str) (n : Nat) :
    ∀ l : List (Str × Nat), (keysOf l).Nodup → (k, n) ∈ l → lookupCount k l = n := by
  intro l
  induction l with
  | nil => intro _ h; simp at h
  | cons p rest ih =>
    obtain ⟨k', v⟩ := p
    intro hnd hmem
    have hnd' := List.nodup_cons.mp hnd
    rcases List.mem_cons.mp hmem with h | h
    · injection h with h1 h2
      subst h1; subst h2
      simp [lookupCount]
    · by_cases hkk' : k' = k
      · subst hkk'
        exact absurd (List.mem_map_of_mem Prod.fst h) hnd'.1
      · rw [lookupCount, if_neg hkk']
        exact ih hnd'.2 h

theorem insertByCountDesc_ne_nil (x : Str × Nat) (l : List (Str × Nat)) :
    insertByCountDesc x l ≠ [] := by
  cases l with
  | nil => simp [insertByCountDesc]
  | cons y ys =>
    rw [insertByCountDesc]
    by_cases h : x.2 < y.2
    · simp [h]
    · simp [h]

theorem sortByCountDesc_eq_nil_iff (l : List (Str × Nat)) :
    sortByCountDesc l = [] ↔ l = [] := by
  cases l with
  | nil => simp [sortByCountDesc]
  | cons x xs =>
    simp only [sortByCountDesc, List.foldr_cons]
    exact ⟨fun h => absurd h (insertByCountDesc_ne_nil x _), fun h => by simp at h⟩

/-- The head of the stable descending sort is the first-encountered entry
of maximal count. -/
theorem head?_sortByCountDesc (l : List (Str × Nat)) :
    (sortByCountDesc l).head? = firstMaxEntry l := by
  induction l with
  | nil => rfl
  | cons x xs ih =>
    simp only [sortByCountDesc, List.foldr_cons] at ih ⊢
    cases hs : xs.foldr insertByCountDesc [] with
    | nil =>
      rw [hs] at ih
      have hxs : firstMaxEntry xs = none := by rw [← ih]; rfl
      simp [insertByCountDesc, firstMaxEntry, hxs]
    | cons h t =>
      rw [hs] at ih
      have hfm : firstMaxEntry xs = some h := by rw [← ih]; rfl
      rw [firstMaxEntry, hfm, insertByCountDesc]
      by_cases hlt : x.2 < h.2
      · simp [hlt, show ¬ h.2 ≤ x.2 by omega]
      · simp [hlt, show h.2 ≤ x.2 by omega]

theorem headD_eq_head?_getD (l : List (Str × Nat)) (d : Str × Nat) :
    l.headD d = (l.head?).getD d := by
  cases l <;> rfl

/-- Projection of the single `forEach` accumulation pass. -/
theorem foldl_consStep (analyses : List SegmentAnalysis) :
    ∀ acc : ConsAcc,
      analyses.foldl consStep acc =
        ⟨(analyses.map (·.tipo_principal)).foldl bump acc.tiposFrecuencia,
         acc.todosComponentes ++ analyses.flatMap (·.componentes),
         acc.todosCambios ++ analyses.flatMap (·.cambios),
         acc.contextos ++ (analyses.map (·.contexto)).filter (fun c => c ≠ [])⟩ := by
  induction analyses with
  | nil => intro acc; simp
  | cons a as ih =>
    intro acc
    rw [List.foldl_cons, ih (consStep acc a)]
    simp only [consStep, List.map_cons, List.foldl_cons, List.flatMap_cons,
      List.filter_cons]
    by_cases hc : a.contexto = []
    · simp [hc, List.append_assoc]
    · simp [hc, List.append_assoc]

/-- Claim C6 (amended: the segment contexts are joined with `". "` in
segment order, but only the non-empty ones — JS `if (analysis.contexto)`
skips a falsy empty string): for well-formed analyses,
`consolidateAnalysis` is pure and returns the first-encountered commit
type of maximal occurrence count (the tally's counts are the occurrence
counts, its keys are in first-appearance order), the first-appearance
deduplicated union of the component lists, the plain concatenation of the
change lists, and the non-empty contexts joined with `". "`. -/
theorem c6_consolidate (analyses : List SegmentAnalysis) (hne : analyses ≠ [])
    (hwf : ∀ a ∈ analyses, a.tipo_principal ∈ validTypes) :
    (consolidateAnalysis analyses).tipo_principal
        = ((firstMaxEntry (tallyTipos analyses)).getD ([], 0)).1 ∧
    (∀ k n, (k, n) ∈ tallyTipos analyses →
        n = (analyses.map (·.tipo_principal)).count k) ∧
    keysOf (tallyTipos analyses) = dedupFirst (analyses.map (·.tipo_principal)) ∧
    (consolidateAnalysis analyses).componentes
        = dedupFirst (analyses.flatMap (·.componentes)) ∧
    (consolidateAnalysis analyses).cambios = analyses.flatMap (·.cambios) ∧
    (consolidateAnalysis analyses).contexto_general
        = joinDotSpace ((analyses.map (·.contexto)).filter (fun c => c ≠ [])) := by
  have hfold := foldl_consStep analyses ⟨[], [], [], []⟩
  have hnodup : (keysOf (tallyTipos analyses)).Nodup := by
    rw [tallyTipos, keysOf_foldl_bump]
    simpa [keysOf] using dedupFirstAux_nodup (analyses.map (·.tipo_principal)) []
  refine ⟨?_, ?_, ?_, ?_, ?_, ?_⟩
  · simp only [consolidateAnalysis, hfold]
    rw [headD_eq_head?_getD, head?_sortByCountDesc]
    rfl
  · intro k n hmem
    have hl := lookupCount_of_mem k n (tallyTipos analyses) hnodup hmem
    rw [tallyTipos, lookupCount_foldl_bump] at hl
    simpa [lookupCount] using hl.symm
  · rw [tallyTipos, keysOf_foldl_bump]
    rfl
  · simp only [consolidateAnalysis, hfold]
    simp [dedupFirst]
  · simp only [consolidateAnalysis, hfold]
    simp
  · simp only [consolidateAnalysis, hfold]
    simp

/-- Counterexample input for C6: the second segment has an empty context
string, which the JS truthiness check skips. -/
def c6CexAnalyses : List SegmentAnalysis :=
  [ ⟨"feat".toList, ["a".toList], ["c1".toList], "ctx".toList⟩,
    ⟨"feat".toList, [], [], []⟩ ]

/-- Counterexample for C6 as stated: `contexto_general` is `"ctx"`, not
the join of all segment contexts `"ctx. "` — the empty context is dropped
(JS `if (analysis.contexto)` is false on `""`). -/
theorem c6_counterexample :
    (consolidateAnalysis c6CexAnalyses).contexto_general = "ctx".toList ∧
    (consolidateAnalysis c6CexAnalyses).contexto_general
      ≠ joinDotSpace (c6CexAnalyses.map (·.contexto)) := by
  decide

/-- Witness input for C6. -/
def c6WitAnalyses : List SegmentAnalysis :=
  [ ⟨"feat".toList, ["a".toList], ["c1".toList], "ctx".toList⟩,
    ⟨"fix".toList, ["a".toList, "b".toList], ["c2".toList], "mas".toList⟩,
    ⟨"feat".toList, [], [], "fin".toList⟩ ]

/-- Witness for C6 at a concrete non-empty well-formed input. -/
theorem c6_consolidate_witness :
    (consolidateAnalysis c6WitAnalyses).tipo_principal
        = ((firstMaxEntry (tallyTipos c6WitAnalyses)).getD ([], 0)).1 ∧
    (∀ k n, (k, n) ∈ tallyTipos c6WitAnalyses →
        n = (c6WitAnalyses.map (·.tipo_principal)).count k) ∧
    keysOf (tallyTipos c6WitAnalyses)
        = dedupFirst (c6WitAnalyses.map (·.tipo_principal)) ∧
    (consolidateAnalysis c6WitAnalyses).componentes
        = dedupFirst (c6WitAnalyses.flatMap (·.componentes)) ∧
    (consolidateAnalysis c6WitAnalyses).cambios
        = c6WitAnalyses.flatMap (·.cambios) ∧
    (consolidateAnalysis c6WitAnalyses).contexto_general
        = joinDotSpace ((c6WitAnalyses.map (·.contexto)).filter (fun c => c ≠ [])) :=
  c6_consolidate c6WitAnalyses (by decide) (by decide)

/-! ## Lemmas about the chunker -/

theorem splitLongLineAux_flatten :
    ∀ (fuel : Nat) (s : Str) (m : Nat), s.length ≤ fuel → 1 ≤ m →
      (splitLongLineAux fuel s m).flatten = s := by
  intro fuel
  induction fuel with
  | zero =>
    intro s m hs _
    cases s with
    | nil => rfl
    | cons c r => simp at hs
  | succ n ih =>
    intro s m hs hm
    cases s with
    | nil => rfl
    | cons c r =>
      rw [splitLongLineAux]
      rw [List.flatten_cons,
        ih ((c :: r).drop m) m (by simp [List.length_drop, List.length_cons] at hs ⊢; omega) hm,
        List.take_append_drop]

theorem splitLongLineAux_window_le :
    ∀ (fuel : Nat) (s : Str) (m : Nat), ∀ p ∈ splitLongLineAux fuel s m, p.length ≤ m := by
  intro fuel
  induction fuel with
  | zero => intro s m p hp; simp [splitLongLineAux] at hp
  | succ n ih =>
    intro s m p hp
    cases s with
    | nil => simp [splitLongLineAux] at hp
    | cons c r =>
      rw [splitLongLineAux] at hp
      rcases List.mem_cons.mp hp with h | h
      · subst h; exact List.length_take_le m (c :: r)
      · exact ih _ m p h

theorem splitLongLine_flatten (line : Str) (mt : Nat) (hmt : 1 ≤ mt) :
    (splitLongLine line mt).flatten = line :=
  splitLongLineAux_flatten line.length line (mt * 4) (Nat.le_refl _) (by omega)

theorem splitLongLine_ne_nil (line : Str) (mt : Nat) (hline : line ≠ []) :
    splitLongLine line mt ≠ [] := by
  cases line with
  | nil => exact absurd rfl hline
  | cons c r => simp [splitLongLine, splitLongLineAux]

/-- An oversized line is non-empty (its estimate exceeds `maxTokens ≥ 0`). -/
theorem oversized_ne_nil (line : Str) (mt : Nat) (h : mt < estimateTokens line) :
    line ≠ [] := by
  intro hc
  subst hc
  simp [estimateTokens] at h

theorem splitOnNl_ne_nil (s : Str) : splitOnNl s ≠ [] := by
  induction s with
  | nil => simp [splitOnNl]
  | cons c r ih =>
    rw [splitOnNl]
    by_cases hc : c = '\n'
    · simp [hc]
    · cases hr : splitOnNl r with
      | nil => simp [hc]
      | cons x xs => simp [hc]

theorem splitOnNl_no_newline (s : Str) (h : '\n' ∉ s) : splitOnNl s = [s] := by
  induction s with
  | nil => rfl
  | cons c r ih =>
    have hc : ¬ c = '\n' := fun hc => h (hc ▸ List.mem_cons_self c r)
    have hr : splitOnNl r = [r] := ih (fun hm => h (List.mem_cons_of_mem c hm))
    rw [splitOnNl, if_neg hc, hr]

theorem splitOnNl_append_newline (x s : Str) (h : '\n' ∉ x) :
    splitOnNl (x ++ '\n' :: s) = x :: splitOnNl s := by
  induction x with
  | nil => simp [splitOnNl]
  | cons c r ih =>
    have hc : ¬ c = '\n' := fun hc => h (hc ▸ List.mem_cons_self c r)
    have hr := ih (fun hm => h (List.mem_cons_of_mem c hm))
    rw [List.cons_append, splitOnNl, if_neg hc, hr]

theorem splitOnNl_joinNl (ls : List Str) (hne : ls ≠ [])
    (hnl : ∀ l ∈ ls, '\n' ∉ l) : splitOnNl (joinNl ls) = ls := by
  induction ls with
  | nil => exact absurd rfl hne
  | cons x rest ih =>
    cases rest with
    | nil =>
      rw [joinNl]
      exact splitOnNl_no_newline x (hnl x (List.mem_cons_self _ _))
    | cons y ys =>
      rw [joinNl, splitOnNl_append_newline x _ (hnl x (List.mem_cons_self _ _))]
      rw [ih (by simp) (fun l hl => hnl l (List.mem_cons_of_mem x hl))]

/-- Reconstruction invariant: dropping each flushed chunk's overlap lines
and re-joining each oversized line's windows recovers the unprocessed
lines after the current chunk's own non-overlap lines. -/
theorem chunksGoI_recon (mt : Nat) (hmt : 1 ≤ mt) :
    ∀ (lines cur : List Str) (ov ct : Nat), ov ≤ cur.length →
      (chunksGoI mt lines cur ov ct).flatMap (reconChunk mt) = cur.drop ov ++ lines := by
  intro lines
  induction lines with
  | nil =>
    intro cur ov ct hov
    by_cases hc : cur = []
    · subst hc; simp [chunksGoI, reconChunk]
    · simp [chunksGoI, hc, reconChunk]
  | cons line rest ih =>
    intro cur ov ct hov
    simp only [chunksGoI]
    by_cases h1 : mt < estimateTokens line
    · rw [if_pos h1]
      have hrec : (chunksGoI mt rest [] 0 0).flatMap (reconChunk mt) = rest := by
        rw [ih [] 0 0 (by simp)]; rfl
      by_cases hc : cur = []
      · rw [if_pos hc, hc]
        simp only [List.nil_append, List.flatMap_cons, hrec, reconChunk,
          splitLongLine_flatten line mt hmt]
        simp
      · rw [if_neg hc]
        simp only [List.flatMap_append, List.flatMap_cons, List.flatMap_nil,
          reconChunk, hrec, splitLongLine_flatten line mt hmt]
        simp
    · rw [if_neg h1]
      by_cases h2 : mt < ct + estimateTokens line ∧ cur ≠ []
      · rw [if_pos h2]
        have hk : min 5 cur.length ≤ cur.length := Nat.min_le_right _ _
        have hseedlen :
            (cur.drop (cur.length - min 5 cur.length)).length = min 5 cur.length := by
          rw [List.length_drop]; omega
        have hrec : ∀ ct',
            (chunksGoI mt rest (cur.drop (cur.length - min 5 cur.length) ++ [line])
                (min 5 cur.length) ct').flatMap (reconChunk mt)
              = (cur.drop (cur.length - min 5 cur.length) ++ [line]).drop
                  (min 5 cur.length) ++ rest :=
          fun ct' => ih _ _ ct' (by rw [List.length_append, hseedlen]; simp)
        simp only [List.flatMap_cons, reconChunk, hrec]
        rw [List.drop_left' hseedlen]
        simp
      · rw [if_neg h2]
        rw [ih (cur ++ [line]) ov _ (by rw [List.length_append]; omega)]
        rw [List.drop_append_of_le_length hov]
        simp

/-- Erasing the instrumented chunks yields exactly the strings that
`splitDiffIntoChunks` pushes. -/
theorem chunksGoI_erase (mt : Nat) :
    ∀ (lines cur : List Str) (ov ct : Nat),
      (chunksGoI mt lines cur ov ct).flatMap (eraseChunk mt) = chunksGo mt lines cur ct := by
  intro lines
  induction lines with
  | nil =>
    intro cur ov ct
    by_cases hc : cur = []
    · subst hc; simp [chunksGoI, chunksGo, eraseChunk]
    · simp [chunksGoI, chunksGo, hc, eraseChunk]
  | cons line rest ih =>
    intro cur ov ct
    simp only [chunksGoI, chunksGo]
    by_cases h1 : mt < estimateTokens line
    · rw [if_pos h1, if_pos h1]
      by_cases hc : cur = []
      · rw [if_pos hc, if_pos hc]
        simp [List.flatMap_cons, eraseChunk, ih]
      · rw [if_neg hc, if_neg hc]
        simp [List.flatMap_append, List.flatMap_cons, eraseChunk, ih]
    · rw [if_neg h1, if_neg h1]
      by_cases h2 : mt < ct + estimateTokens line ∧ cur ≠ []
      · rw [if_pos h2, if_pos h2]
        simp [List.flatMap_cons, eraseChunk, ih]
      · rw [if_neg h2, if_neg h2]
        exact ih _ _ _

/-- The chunk list is non-empty whenever there is a line or an
accumulated chunk left. -/
theorem chunksGo_ne_nil (mt : Nat) (hmt : 1 ≤ mt) :
    ∀ (lines cur : List Str) (ct : Nat), lines ≠ [] ∨ cur ≠ [] →
      chunksGo mt lines cur ct ≠ [] := by
  intro lines
  induction lines with
  | nil =>
    intro cur ct h
    rcases h with h | h
    · exact absurd rfl h
    · simp [chunksGo, h]
  | cons line rest ih =>
    intro cur ct _
    simp only [chunksGo]
    by_cases h1 : mt < estimateTokens line
    · rw [if_pos h1]
      intro hc
      rcases List.append_eq_nil.mp hc with ⟨hc1, _⟩
      rcases List.append_eq_nil.mp hc1 with ⟨_, hc3⟩
      exact splitLongLine_ne_nil line mt (oversized_ne_nil line mt h1) hc3
    · rw [if_neg h1]
      by_cases h2 : mt < ct + estimateTokens line ∧ cur ≠ []
      · rw [if_pos h2]; simp
      · rw [if_neg h2]
        refine ih _ _ (Or.inr ?_)
        simp

/-- Claim C1: for `maxTokens ≥ 1` the chunker returns a non-empty chunk
sequence (for every input, in particular non-empty ones), the
instrumented run erases to exactly the chunks returned, and concatenating
all chunks' lines after dropping the injected overlap lines and
re-joining the oversized-line character windows reconstructs the original
line sequence `diff.split('\n')`. -/
theorem c1_chunker_reconstruction (diff : Str) (mt : Nat) (hmt : 1 ≤ mt) :
    splitDiffIntoChunks diff mt ≠ [] ∧
    (splitDiffIntoChunksI diff mt).flatMap (eraseChunk mt)
      = splitDiffIntoChunks diff mt ∧
    (splitDiffIntoChunksI diff mt).flatMap (reconChunk mt) = splitOnNl diff := by
  refine ⟨?_, chunksGoI_erase mt (splitOnNl diff) [] 0 0, ?_⟩
  · exact chunksGo_ne_nil mt hmt (splitOnNl diff) [] 0 (Or.inl (splitOnNl_ne_nil diff))
  · have h := chunksGoI_recon mt hmt (splitOnNl diff) [] 0 0 (by simp)
    simpa using h

/-- Witness for C1 at `diff = "hola\nmundo"`, `maxTokens = 1`. -/
theorem c1_chunker_reconstruction_witness :
    (1 : Nat) ≤ 1 ∧
    (splitDiffIntoChunks ("hola\nmundo".toList) 1 ≠ [] ∧
     (splitDiffIntoChunksI ("hola\nmundo".toList) 1).flatMap (eraseChunk 1)
        = splitDiffIntoChunks ("hola\nmundo".toList) 1 ∧
     (splitDiffIntoChunksI ("hola\nmundo".toList) 1).flatMap (reconChunk 1)
        = splitOnNl ("hola\nmundo".toList)) :=
  ⟨Nat.le_refl 1, c1_chunker_reconstruction ("hola\nmundo".toList) 1 (Nat.le_refl 1)⟩

/-- Every line of every flushed chunk has estimate at most `maxTokens`
(lines are only accumulated through the non-oversized branch, and overlap
seeds are sublists of previously accumulated lines). -/
theorem chunksGoI_fl_mem_le (mt : Nat) :
    ∀ (lines cur : List Str) (ov ct : Nat),
      (∀ l ∈ cur, estimateTokens l ≤ mt) →
      ∀ ls ov', IChunk.fl ls ov' ∈ chunksGoI mt lines cur ov ct →
        ∀ l ∈ ls, estimateTokens l ≤ mt := by
  intro lines
  induction lines with
  | nil =>
    intro cur ov ct hcur ls ov' hmem
    by_cases hc : cur = []
    · simp [chunksGoI, hc] at hmem
    · simp only [chunksGoI, if_neg hc, List.mem_singleton] at hmem
      injection hmem with h1 h2
      exact h1 ▸ hcur
  | cons line rest ih =>
    intro cur ov ct hcur ls ov' hmem
    simp only [chunksGoI] at hmem
    by_cases h1 : mt < estimateTokens line
    · rw [if_pos h1] at hmem
      rcases List.mem_append.mp hmem with hm | hm
      · by_cases hc : cur = []
        · simp [hc] at hm
        · rw [if_neg hc, List.mem_singleton] at hm
          injection hm with hA hB
          exact hA ▸ hcur
      · rcases List.mem_cons.mp hm with hm1 | hm1
        · exact absurd hm1 (by simp)
        · exact ih [] 0 0 (by simp) ls ov' hm1
    · rw [if_neg h1] at hmem
      have hline : estimateTokens line ≤ mt := by omega
      by_cases h2 : mt < ct + estimateTokens line ∧ cur ≠ []
      · rw [if_pos h2] at hmem
        rcases List.mem_cons.mp hmem with hm | hm
        · injection hm with hA hB
          exact hA ▸ hcur
        · refine ih _ _ _ ?_ ls ov' hm
          intro l hl
          rcases List.mem_append.mp hl with hl1 | hl1
          · exact hcur l (List.drop_subset _ _ hl1)
          · rw [List.mem_singleton.mp hl1]; exact hline
      · rw [if_neg h2] at hmem
        refine ih _ _ _ ?_ ls ov' hmem
        intro l hl
        rcases List.mem_append.mp hl with hl1 | hl1
        · exact hcur l hl1
        · rw [List.mem_singleton.mp hl1]; exact hline

/-- Counterexample input for C2. -/
def c2CexDiff : Str := "aaaa\nbbbb\ncccc".toList

/-- Counterexample for C2 as stated: with `maxTokens = 1` the second
chunk produced from `"aaaa\nbbbb\ncccc"` is `"aaaa\nbbbb"` (overlap seed
plus the next line), whose estimated token cost is 3 > 1: the joined
chunk's estimate counts the newline separator and the overlap seed, which
the running per-line total never re-checks against the budget. -/
theorem c2_counterexample :
    (1 : Nat) ≤ 1 ∧
    (splitDiffIntoChunks c2CexDiff 1).getD 1 [] = "aaaa\nbbbb".toList ∧
    1 < estimateTokens ((splitDiffIntoChunks c2CexDiff 1).getD 1 []) := by
  decide

/-- Claim C2 (amended): the character windows produced from a single
oversized line are bounded — each has at most `maxTokens * 4` characters,
hence estimate at most `maxTokens` — and every single line of every
flush-path chunk has estimate at most `maxTokens`; but the estimate of a
whole flushed chunk may exceed `maxTokens` (see the counterexample),
because joining with `'\n'` and re-seeding with up to five overlap lines
can push it over the budget. -/
theorem c2_amended_token_bounds (diff : Str) (mt : Nat) (hmt : 1 ≤ mt) :
    (∀ ls ov, IChunk.fl ls ov ∈ splitDiffIntoChunksI diff mt →
        ∀ l ∈ ls, estimateTokens l ≤ mt) ∧
    (∀ line : Str, ∀ p ∈ splitLongLine line mt,
        p.length ≤ mt * 4 ∧ estimateTokens p ≤ mt) := by
  constructor
  · intro ls ov hmem
    exact chunksGoI_fl_mem_le mt (splitOnNl diff) [] 0 0 (by simp) ls ov hmem
  · intro line p hp
    have hlen : p.length ≤ mt * 4 := splitLongLineAux_window_le _ _ _ p hp
    exact ⟨hlen, by rw [estimateTokens]; omega⟩

/-- Witness for C2 at `diff = "aaaa\nbbbb"`, `maxTokens = 1`. -/
theorem c2_amended_token_bounds_witness :
    (1 : Nat) ≤ 1 ∧
    ((∀ ls ov, IChunk.fl ls ov ∈ splitDiffIntoChunksI ("aaaa\nbbbb".toList) 1 →
        ∀ l ∈ ls, estimateTokens l ≤ 1) ∧
     (∀ line : Str, ∀ p ∈ splitLongLine line 1,
        p.length ≤ 1 * 4 ∧ estimateTokens p ≤ 1)) :=
  ⟨Nat.le_refl 1, c2_amended_token_bounds ("aaaa\nbbbb".toList) 1 (Nat.le_refl 1)⟩

/-- While the accumulated chunk is non-empty, the next emitted chunk is a
flush of it: the first chunk of the remaining run extends `cur` and keeps
its recorded overlap count. -/
theorem chunksGoI_head (mt : Nat) :
    ∀ (lines cur : List Str) (ov ct : Nat), cur ≠ [] →
      ∃ ext rest', chunksGoI mt lines cur ov ct = .fl (cur ++ ext) ov :: rest' := by
  intro lines
  induction lines with
  | nil =>
    intro cur ov ct hc
    exact ⟨[], [], by simp [chunksGoI, hc]⟩
  | cons line rest ih =>
    intro cur ov ct hc
    simp only [chunksGoI]
    by_cases h1 : mt < estimateTokens line
    · rw [if_pos h1, if_neg hc]
      exact ⟨[], IChunk.win line :: chunksGoI mt rest [] 0 0, by simp⟩
    · rw [if_neg h1]
      by_cases h2 : mt < ct + estimateTokens line ∧ cur ≠ []
      · rw [if_pos h2]
        refine ⟨[], chunksGoI mt rest
          (cur.drop (cur.length - min 5 cur.length) ++ [line]) (min 5 cur.length)
          (estimateTokens (joinNl (cur.drop (cur.length - min 5 cur.length)))
            + estimateTokens line), by simp⟩
      · rw [if_neg h2]
        obtain ⟨ext', rest', hrec⟩ :=
          ih (cur ++ [line]) ov (ct + estimateTokens line) (by simp)
        exact ⟨[line] ++ ext', rest', by rw [hrec, List.append_assoc]⟩

/-- Adjacent chunks of the instrumented run satisfy the overlap
relation. -/
theorem chunksGoI_chain (mt : Nat) :
    ∀ (lines cur : List Str) (ov ct : Nat),
      List.Chain' flPairOK (chunksGoI mt lines cur ov ct) := by
  intro lines
  induction lines with
  | nil =>
    intro cur ov ct
    by_cases hc : cur = []
    · simp [chunksGoI, hc]
    · simp [chunksGoI, hc]
  | cons line rest ih =>
    intro cur ov ct
    simp only [chunksGoI]
    by_cases h1 : mt < estimateTokens line
    · rw [if_pos h1]
      have htail : List.Chain' flPairOK (IChunk.win line :: chunksGoI mt rest [] 0 0) := by
        refine List.chain'_cons'.mpr ⟨?_, ih [] 0 0⟩
        intro y _
        simp [flPairOK]
      by_cases hc : cur = []
      · rw [if_pos hc]
        simpa using htail
      · rw [if_neg hc]
        refine List.Chain'.append ?_ htail ?_
        · simp
        · intro x hx y hy
          simp only [List.getLast?_singleton, Option.mem_def, Option.some.injEq] at hx
          simp only [List.head?_cons, Option.mem_def, Option.some.injEq] at hy
          rw [← hx, ← hy]
          simp [flPairOK]
    · rw [if_neg h1]
      by_cases h2 : mt < ct + estimateTokens line ∧ cur ≠ []
      · rw [if_pos h2]
        refine List.chain'_cons'.mpr ⟨?_, ih _ _ _⟩
        intro y hy
        have hk : min 5 cur.length ≤ cur.length := Nat.min_le_right _ _
        have hseedlen :
            (cur.drop (cur.length - min 5 cur.length)).length = min 5 cur.length := by
          rw [List.length_drop]; omega
        obtain ⟨ext, rest', hrec⟩ :=
          chunksGoI_head mt rest
            (cur.drop (cur.length - min 5 cur.length) ++ [line]) (min 5 cur.length)
            (estimateTokens (joinNl (cur.drop (cur.length - min 5 cur.length)))
              + estimateTokens line)
            (by simp)
        rw [hrec] at hy
        simp only [List.head?_cons, Option.mem_def, Option.some.injEq] at hy
        subst hy
        constructor
        · have := h2.2
          cases cur with
          | nil => exact absurd rfl this
          | cons a b => simp
        · rw [List.append_assoc]
          exact List.take_left' hseedlen
      · rw [if_neg h2]
        exact ih _ _ _

/-- Claim C8: any two adjacent flush-path chunks overlap — the first
`min(5, |chunk i|)` lines of chunk `i+1` equal the last `min(5, |chunk
i|)` lines of chunk `i`, and a flushed chunk always has at least one
line. -/
theorem c8_overlap (diff : Str) (mt j : Nat) (ls1 ls2 : List Str) (ov1 ov2 : Nat)
    (h1 : (splitDiffIntoChunksI diff mt).get? j = some (.fl ls1 ov1))
    (h2 : (splitDiffIntoChunksI diff mt).get? (j + 1) = some (.fl ls2 ov2)) :
    1 ≤ ls1.length ∧
      ls2.take (min 5 ls1.length) = ls1.drop (ls1.length - min 5 ls1.length) := by
  have hch : List.Chain' flPairOK (splitDiffIntoChunksI diff mt) :=
    chunksGoI_chain mt (splitOnNl diff) [] 0 0
  rw [List.chain'_iff_get] at hch
  have hlen : j + 1 < (splitDiffIntoChunksI diff mt).length := by
    have := List.get?_eq_some.mp h2
    exact this.1
  have hjlt : j < (splitDiffIntoChunksI diff mt).length - 1 := by omega
  have hR := hch j hjlt
  obtain ⟨hj1, hget1⟩ := List.get?_eq_some.mp h1
  obtain ⟨hj2, hget2⟩ := List.get?_eq_some.mp h2
  rw [hget1, hget2] at hR
  simpa [flPairOK] using hR

/-- Witness for C8: in the run on `"aaaa\nbbbb\ncccc"` with budget 1,
chunks 0 and 1 are adjacent flush-path chunks with the required
overlap. -/
theorem c8_overlap_witness :
    (splitDiffIntoChunksI c2CexDiff 1).get? 0 = some (.fl ["aaaa".toList] 0) ∧
    (splitDiffIntoChunksI c2CexDiff 1).get? 1
      = some (.fl ["aaaa".toList, "bbbb".toList] 1) ∧
    1 ≤ ([("aaaa".toList : Str)]).length ∧
    (["aaaa".toList, "bbbb".toList] : List Str).take (min 5 ([("aaaa".toList : Str)]).length)
      = ([("aaaa".toList : Str)]).drop
          (([("aaaa".toList : Str)]).length - min 5 ([("aaaa".toList : Str)]).length) := by
  refine ⟨by decide, by decide, ?_⟩
  exact c8_overlap c2CexDiff 1 0 ["aaaa".toList] ["aaaa".toList, "bbbb".toList] 0 1
    (by decide) (by decide)

/-- When the per-line estimates of the remaining lines fit in the budget
on top of the running total, the loop never flushes: everything ends up
in one final chunk. -/
theorem chunksGo_single (mt : Nat) :
    ∀ (lines cur : List Str) (ct : Nat),
      ct + sumTokens lines ≤ mt →
      chunksGo mt lines cur ct
        = if cur ++ lines = [] then [] else [joinNl (cur ++ lines)] := by
  intro lines
  induction lines with
  | nil =>
    intro cur ct _
    rw [List.append_nil, chunksGo]
  | cons line rest ih =>
    intro cur ct hle
    have hsum : sumTokens (line :: rest) = estimateTokens line + sumTokens rest := by
      simp [sumTokens]
    rw [hsum] at hle
    simp only [chunksGo]
    rw [if_neg (by omega), if_neg (by rintro ⟨hlt, _⟩; omega)]
    rw [ih (cur ++ [line]) (ct + estimateTokens line) (by omega)]
    rw [List.append_assoc, List.singleton_append]

theorem sumTokens_replicate (n : Nat) (x : Str) :
    sumTokens (List.replicate n x) = n * estimateTokens x := by
  induction n with
  | zero => simp [sumTokens]
  | succ m ih =>
    rw [List.replicate_succ]
    simp only [sumTokens, List.map_cons, List.sum_cons] at ih ⊢
    rw [ih]
    ring

theorem joinNl_length_replicate (x : Str) :
    ∀ n : Nat, 1 ≤ n →
      (joinNl (List.replicate n x)).length = n * x.length + (n - 1) := by
  intro n
  induction n with
  | zero => intro h; omega
  | succ m ih =>
    intro _
    by_cases hm : m = 0
    · subst hm; simp [joinNl]
    · rw [List.replicate_succ]
      have hm1 : 1 ≤ m := by omega
      cases hr : List.replicate m x with
      | nil => rw [List.replicate_eq_nil_iff] at hr; omega
      | cons y ys =>
        rw [joinNl, ← hr]
        simp only [List.length_append, List.length_cons]
        rw [ih hm1]
        have hx : (m + 1) * x.length = m * x.length + x.length := by ring
        omega

/-- Counterexample for C7's "at least 2 chunks": `bigDiffC7` (10441 lines
of 4 characters) has whole-text estimate 13051 > 13050, so
`generateCommit` takes the chunked path, yet `splitDiffIntoChunks`
returns a single chunk (the per-line estimate sum, 10441, never exceeds
the budget — the whole-text estimate counts the 10440 newline separators
that the per-line accumulation ignores). -/
theorem c7_counterexample :
    MAX_TOKEN_LENGTH < estimateTokens bigDiffC7 ∧
    generateCommitRoute bigDiffC7
      = .chunked (splitDiffIntoChunks bigDiffC7 MAX_TOKEN_LENGTH) ∧
    (splitDiffIntoChunks bigDiffC7 MAX_TOKEN_LENGTH).length = 1 := by
  have hlen : (joinNl (List.replicate 10441 ("aaaa".toList))).length = 52204 := by
    rw [joinNl_length_replicate ("aaaa".toList) 10441 (by omega),
      show ("aaaa".toList : Str).length = 4 from rfl]
  have hest : estimateTokens bigDiffC7 = 13051 := by
    rw [bigDiffC7, estimateTokens, hlen]
  have hne : List.replicate 10441 ("aaaa".toList) ≠ [] := by
    rw [Ne, List.replicate_eq_nil_iff]
    decide
  have hlines : splitOnNl bigDiffC7 = List.replicate 10441 ("aaaa".toList) := by
    rw [bigDiffC7]
    refine splitOnNl_joinNl _ hne ?_
    intro l hl
    rw [List.eq_of_mem_replicate hl]
    decide
  refine ⟨by rw [hest]; decide, ?_, ?_⟩
  · rw [generateCommitRoute, if_neg (by rw [hest]; decide)]
  · rw [splitDiffIntoChunks, hlines,
      chunksGo_single MAX_TOKEN_LENGTH _ [] 0
        (by rw [sumTokens_replicate]; decide)]
    rw [List.nil_append, if_neg hne]
    rfl

/-- Claim C7 (amended): a diff whose estimate is at most
`MAX_TOKEN_LENGTH` takes the single-pass path (the chunker is never
invoked on that path — `Route.single` carries no chunks); a diff whose
estimate exceeds it takes the chunked path, invoking
`splitDiffIntoChunks`, whose result is non-empty — but it may be a single
chunk (see the counterexample), not necessarily two or more. -/
theorem c7_routing (diff : Str) :
    (estimateTokens diff ≤ MAX_TOKEN_LENGTH → generateCommitRoute diff = .single) ∧
    (MAX_TOKEN_LENGTH < estimateTokens diff →
      generateCommitRoute diff = .chunked (splitDiffIntoChunks diff MAX_TOKEN_LENGTH) ∧
      splitDiffIntoChunks diff MAX_TOKEN_LENGTH ≠ []) := by
  constructor
  · intro h
    rw [generateCommitRoute, if_pos h]
  · intro h
    refine ⟨by rw [generateCommitRoute, if_neg (by omega)], ?_⟩
    exact chunksGo_ne_nil MAX_TOKEN_LENGTH (by rw [MAX_TOKEN_LENGTH]; omega)
      (splitOnNl diff) [] 0 (Or.inl (splitOnNl_ne_nil diff))

/-- Witness for C7 at the small diff `"x"` (estimate 1 ≤ 13050). -/
theorem c7_routing_witness :
    estimateTokens ("x".toList) ≤ MAX_TOKEN_LENGTH ∧
    generateCommitRoute ("x".toList) = .single :=
  ⟨by decide, (c7_routing ("x".toList)).1 (by decide)⟩

/-- Counterexample for C9 as stated: the reply `"\x7b\x7d"` cannot be
decoded as the SegmentAnalysis shape (it is an object with no fields at
all), yet `analyzeChunk` does not substitute the fallback: `JSON.parse`
succeeds on the brace region and the field-less object is returned
as-is. -/
theorem c9_counterexample :
    analyzeChunkDecode ("\x7b\x7d".toList) 0 = Json.obj [] ∧
    analyzeChunkDecode ("\x7b\x7d".toList) 0 ≠ fallbackAnalysis ("\x7b\x7d".toList) 0 := by
  refine ⟨rfl, fun h => ?_⟩
  exact absurd (congrArg jsonObjSize h) (by decide)

/-- Reduction of the decode step when a brace region exists. -/
theorem analyzeChunkDecode_eq_getD (response : Str) (i : Nat) (region : Str)
    (he : extractJsonRegion response = some region) :
    analyzeChunkDecode response i
      = (jsonParse region).getD (fallbackAnalysis response i) := by
  unfold analyzeChunkDecode
  rw [he]
  show (match jsonParse region with
    | some v => v
    | none => fallbackAnalysis response i)
      = (jsonParse region).getD (fallbackAnalysis response i)
  cases jsonParse region <;> rfl

/-- Reduction of the decode step when no brace region exists. -/
theorem analyzeChunkDecode_eq_fallback (response : Str) (i : Nat)
    (he : extractJsonRegion response = none) :
    analyzeChunkDecode response i = fallbackAnalysis response i := by
  unfold analyzeChunkDecode
  rw [he]

/-- Reduction of the failure test when a brace region exists. -/
theorem analyzeChunkDecodeFails_eq_isNone (response : Str) (region : Str)
    (he : extractJsonRegion response = some region) :
    analyzeChunkDecodeFails response = (jsonParse region).isNone := by
  unfold analyzeChunkDecodeFails
  rw [he]

/-- Claim C9 (amended): the decode step never fails the pipeline — it is
total — and the fallback `{ tipo_principal: "chore", componentes:
["codigo"], cambios: ["Cambios en fragmento <i+1>"], contexto: first 100
characters + "..." }` is substituted exactly when the reply has no
brace region or the region is not parseable JSON; a reply that parses is
returned unchanged, even when SegmentAnalysis fields are missing. -/
theorem c9_decode_fallback (response : Str) (i : Nat) :
    (analyzeChunkDecodeFails response = true →
      analyzeChunkDecode response i
        = Json.obj
            [ ("tipo_principal".toList, .str ("chore".toList)),
              ("componentes".toList, .arr [.str ("codigo".toList)]),
              ("cambios".toList,
                .arr [.str ("Cambios en fragmento ".toList ++ natToStr (i + 1))]),
              ("contexto".toList, .str (response.take 100 ++ "...".toList)) ]) ∧
    (∀ region v, extractJsonRegion response = some region → jsonParse region = some v →
      analyzeChunkDecode response i = v) := by
  cases he : extractJsonRegion response with
  | none =>
    refine ⟨fun _ => analyzeChunkDecode_eq_fallback response i he, fun region v hr _ => ?_⟩
    exact absurd hr (by simp)
  | some region =>
    refine ⟨fun h => ?_, fun region' v hr hpv => ?_⟩
    · rw [analyzeChunkDecodeFails_eq_isNone response region he] at h
      rw [analyzeChunkDecode_eq_getD response i region he,
        Option.isNone_iff_eq_none.mp h]
      rfl
    · injection hr with hr'
      subst hr'
      rw [analyzeChunkDecode_eq_getD response i region he, hpv]
      rfl

/-- Witness for C9: the reply `"sin json"` has no brace region, and the
decode step returns exactly the fallback object. -/
theorem c9_decode_fallback_witness :
    analyzeChunkDecodeFails ("sin json".toList) = true ∧
    analyzeChunkDecode ("sin json".toList) 0
      = Json.obj
          [ ("tipo_principal".toList, .str ("chore".toList)),
            ("componentes".toList, .arr [.str ("codigo".toList)]),
            ("cambios".toList,
              .arr [.str ("Cambios en fragmento ".toList ++ natToStr (0 + 1))]),
            ("contexto".toList,
              .str (("sin json".toList : Str).take 100 ++ "...".toList)) ] :=
  ⟨by decide, (c9_decode_fallback ("sin json".toList) 0).1 (by decide)⟩
